import Mathlib

/-!
Verification development for the listen-cli ASR daemon.

Shallow embedding of the parts of the repository that the checked claims
are about:

* Python string primitives used by the code (str.split, str.splitlines,
  str.strip, str.upper, str.lower, str.capitalize) modelled over
  List Char / String;
* the preview normalization in BaseEngine (engines/base.py) and the
  tmux_preview writer (asr.py);
* the SherpaOnnxEngine state machine (engines/sherpa_onnx.py): pre-roll
  ring (_append_prebuffer, _drain_prebuffer, _reset_prebuffer), start,
  stop_quick;
* the AssemblyAIEngine stop path (engines/assemblyai.py);
* the ASRDaemon control server (asr.py): request parsing, toggle, and
  the scheduled stop-and-paste task.

The recognizer and punctuator are external libraries; they are modelled
as opaque-as-in-uninterpreted function parameters over the accepted
waveform, never as stubs of repository code.
-/

namespace PyStr

/-- Python whitespace characters recognized by str.split and str.strip
(the Unicode whitespace set str.isspace accepts). -/
def isPyWs (c : Char) : Bool :=
  c = ' ' || c = '\t' || c = '\n' || c = '\r' || c = '\x0b' || c = '\x0c' ||
  c = '\x1c' || c = '\x1d' || c = '\x1e' || c = '\x1f' || c = '\x85' ||
  c = '\xa0' || c = '\u1680' ||
  ('\u2000' ≤ c && c ≤ '\u200a') ||
  c = '\u2028' || c = '\u2029' || c = '\u202f' || c = '\u205f' ||
  c = '\u3000'

/-- Line-boundary characters recognized by Python str.splitlines
(with the two-character boundary CR LF handled separately). -/
def isLineBreak (c : Char) : Bool :=
  c = '\n' || c = '\r' || c = '\x0b' || c = '\x0c' ||
  c = '\x1c' || c = '\x1d' || c = '\x1e' || c = '\x85' ||
  c = '\u2028' || c = '\u2029'

/-- Helper for splitWs: accumulates the current word (reversed). -/
def splitWsAux : List Char → List Char → List (List Char)
  | [], acc => if acc = [] then [] else [acc.reverse]
  | c :: rest, acc =>
    if isPyWs c then
      if acc = [] then splitWsAux rest []
      else acc.reverse :: splitWsAux rest []
    else splitWsAux rest (c :: acc)

/-- Python str.split() with no argument: split on whitespace runs,
dropping empty fields and ignoring leading and trailing whitespace. -/
def splitWs (l : List Char) : List (List Char) := splitWsAux l []

/-- Helper for splitlinesList: accumulates the current line (reversed);
the flag records that the previous character was a carriage return, so
that a following newline is consumed without opening a new line
(making CR LF a single boundary). -/
def splitlinesAux : List Char → List Char → Bool → List (List Char)
  | [], acc, _ => if acc = [] then [] else [acc.reverse]
  | c :: rest, acc, prevCR =>
    if prevCR && c = '\n' then splitlinesAux rest acc false
    else if c = '\r' then acc.reverse :: splitlinesAux rest [] true
    else if isLineBreak c then acc.reverse :: splitlinesAux rest [] false
    else splitlinesAux rest (c :: acc) false

/-- Python str.splitlines(): split at line boundaries, boundary
characters not kept, no trailing empty line for a trailing boundary. -/
def splitlinesList (l : List Char) : List (List Char) :=
  splitlinesAux l [] false

/-- Python str.strip() on a character list: drop whitespace from both
ends. -/
def stripList (l : List Char) : List Char :=
  ((l.dropWhile isPyWs).reverse.dropWhile isPyWs).reverse

/-- Intercalate a single space between character-list fields,
modelling the Python idiom (sep.join after split). -/
def joinSpace : List (List Char) → List Char
  | [] => []
  | [w] => w
  | w :: ws => w ++ ' ' :: joinSpace ws

/-- Python str.strip() on a String. -/
def pyStrip (s : String) : String := ⟨stripList s.data⟩

/-- Python " ".join(s.split()): collapse whitespace runs to single
spaces and drop leading and trailing whitespace. -/
def pyCollapseWs (s : String) : String := ⟨joinSpace (splitWs s.data)⟩

/-- Python " ".join(s.splitlines()): replace each line boundary with a
single space. -/
def pyJoinLines (s : String) : String := ⟨joinSpace (splitlinesList s.data)⟩

/-- Python s.split() at the String level. -/
def pySplit (s : String) : List String := (splitWs s.data).map (fun w => ⟨w⟩)

/-- Python str.upper() (ASCII letters). -/
def pyUpper (s : String) : String := ⟨s.data.map Char.toUpper⟩

/-- Python str.lower() (ASCII letters). -/
def pyLower (s : String) : String := ⟨s.data.map Char.toLower⟩

/-- Python str.capitalize(): first character uppercased, the rest
lowercased. -/
def pyCapitalize (s : String) : String :=
  match s.data with
  | [] => ⟨[]⟩
  | c :: rest => ⟨Char.toUpper c :: rest.map Char.toLower⟩

end PyStr

open PyStr

/-!
Preview normalization.

BaseEngine._emit_partial (engines/base.py lines 36 to 44) normalizes the
text with a join-split whitespace collapse and an ellipsis truncation at
60 characters, then hands it to on_partial (the throttle is a pure
time-based guard that either delivers this normalized text or nothing).

tmux_preview (asr.py lines 66 to 70) joins the lines of the text with
single spaces and applies the same ellipsis truncation before writing
the result to the @asr_preview status key.
-/

/-- Ellipsis truncation shared by both preview paths: strings longer
than 60 characters are cut to their first 60 characters with an
ellipsis appended. -/
def truncate60 (s : String) : String :=
  if s.length > 60 then ⟨s.data.take 60 ++ ['…']⟩ else s

/-- Normalization applied by BaseEngine._emit_partial before invoking
on_partial: whitespace collapse then ellipsis truncation at 60. -/
def emitNormalize (text : String) : String := truncate60 (pyCollapseWs text)

/-- Pure content computation of tmux_preview in asr.py: lines joined by
single spaces, then ellipsis truncation at 60; the result is written to
the @asr_preview key. -/
def tmux_preview (text : String) : String := truncate60 (pyJoinLines text)

/-!
SherpaOnnxEngine (engines/sherpa_onnx.py).

The engine state collects the mutable fields of the class that the
claims are about. The sherpa-onnx recognizer is an external library:
its stream is modelled as the list of accepted samples, and its result
extraction as an uninterpreted function parameter recResult over that
list. Sample values are opaque to all of the modelled logic, so samples
are embedded as integers. The optional punctuator is likewise a
function parameter. Timing fields (_last_hud_ts) and the thread or
event handles carry no decidable state and are omitted; the reset
handshake between start and the capture thread is inlined at the point
start waits for it.
-/

/-- Audio samples are opaque to the ring and control logic. -/
abbrev Sample := Int

/-- One chunk of microphone audio, as delivered by mic.read(). -/
abbrev Chunk := List Sample

namespace Sherpa

/-- Mutable state of SherpaOnnxEngine. The prebuffer deque is a list
with the oldest chunk first (append at the back, popleft at the
front). -/
structure EngineState where
  hotMic : Bool
  initialized : Bool
  listening : Bool
  latestResult : String
  rawText : String
  paddingFrames : Nat
  prebuffer : List Chunk
  prebufferFrames : Nat
  prebufferNeedsFlush : Bool
  firstStartAfterInit : Bool
  requestReset : Bool
  prebufferMaxFrames : Nat
  initialPaddingFrames : Nat
  stream : List Sample
  deriving DecidableEq, Repr

/-- Total frame count of a list of chunks. -/
def sumFrames (l : List Chunk) : Nat := (l.map List.length).sum

/-- Eviction loop of _append_prebuffer: while the cumulative frame
count exceeds the cap and the deque is nonempty, pop the oldest chunk
and subtract its length. -/
def evictOldest : List Chunk → Nat → Nat → List Chunk × Nat
  | [], frames, _ => ([], frames)
  | c :: rest, frames, cap =>
    if cap < frames then evictOldest rest (frames - c.length) cap
    else (c :: rest, frames)

/-- SherpaOnnxEngine._append_prebuffer: skip when the cap is zero or
the chunk is empty, otherwise append the chunk, add its frames, and
evict oldest chunks while over the cap. -/
def appendPrebuffer (s : EngineState) (chunk : Chunk) : EngineState :=
  if s.prebufferMaxFrames = 0 then s
  else if chunk.length = 0 then s
  else
    let p := evictOldest (s.prebuffer ++ [chunk])
      (s.prebufferFrames + chunk.length) s.prebufferMaxFrames
    { s with prebuffer := p.1, prebufferFrames := p.2 }

/-- Longest suffix of a chunk list whose total frame count fits under
the cap (the specification-side description of what eviction keeps). -/
def recentSuffix (cap : Nat) : List Chunk → List Chunk
  | [] => []
  | c :: rest =>
    if cap < sumFrames (c :: rest) then recentSuffix cap rest
    else c :: rest

/-- SherpaOnnxEngine._format_text with the punctuator as a function
parameter: strip, empty short-circuit, lowercase, then either
punctuate (final with a loaded punctuator) or capitalize. -/
def formatText (punct : Option (String → String)) (text : String)
    (final : Bool) : String :=
  let cleaned := pyStrip text
  if cleaned = "" then ""
  else
    let lower := pyLower cleaned
    match punct with
    | some f => if final then f lower else pyCapitalize lower
    | none => pyCapitalize lower

/-- SherpaOnnxEngine._process_samples: feed the chunk to the
recognizer stream, read back the raw result, format it non-final, and
store both (the partial emission itself carries no engine state). -/
def processSamples (recResult : List Sample → String)
    (punct : Option (String → String)) (s : EngineState)
    (chunk : Chunk) : EngineState :=
  let stream := s.stream ++ chunk
  let raw := recResult stream
  let formatted := formatText punct raw false
  { s with stream := stream, rawText := raw, latestResult := formatted }

/-- SherpaOnnxEngine._drain_prebuffer: with a nonzero cap, clear the
deque and the flush flag, then feed every pending chunk to the
recognizer in order. -/
def drainPrebuffer (recResult : List Sample → String)
    (punct : Option (String → String)) (s : EngineState) : EngineState :=
  if s.prebufferMaxFrames = 0 then s
  else if s.prebuffer = [] then { s with prebufferNeedsFlush := false }
  else
    let pending := s.prebuffer
    let s1 := { s with prebuffer := [], prebufferFrames := 0,
                       prebufferNeedsFlush := false }
    pending.foldl (processSamples recResult punct) s1

/-- SherpaOnnxEngine._reset_prebuffer. -/
def resetPrebuffer (s : EngineState) : EngineState :=
  { s with prebuffer := [], prebufferFrames := 0,
           prebufferNeedsFlush := false, rawText := "" }

/-- SherpaOnnxEngine._handle_pending_reset, as executed by the capture
thread: when a reset is requested and the engine is not listening,
consume the request, reset the recognizer stream, and clear the
transcript state and padding counter. -/
def handlePendingReset (s : EngineState) : EngineState :=
  if !s.requestReset || s.listening then s
  else
    { s with requestReset := false, stream := [],
             latestResult := "", paddingFrames := 0, rawText := "" }

/-- SherpaOnnxEngine._load_models: deferred model loading creates the
recognizer with a fresh stream; loading twice is a no-op. -/
def loadModels (s : EngineState) : EngineState :=
  if s.initialized then s
  else { s with initialized := true, stream := [] }

/-- SherpaOnnxEngine.start. In hot-mic mode the call requests a reset,
waits for the capture thread to perform it (inlined here), then raises
the listening flag with fresh padding and applies the first-start
versus subsequent-start pre-roll policy. In segment mode it raises the
listening flag, resets the recognizer, and primes the stream with the
initial padding of silence. -/
def start (s : EngineState) : EngineState :=
  let s0 := if s.initialized then s else loadModels s
  if s0.hotMic then
    if s0.listening then s0
    else
      let s1 := { s0 with latestResult := "", rawText := "",
                          listening := false, paddingFrames := 0,
                          requestReset := true }
      let s2 := handlePendingReset s1
      let s3 := { s2 with paddingFrames := s2.initialPaddingFrames,
                          listening := true }
      if s3.prebufferMaxFrames ≠ 0 then
        if s3.firstStartAfterInit then
          { s3 with prebuffer := [], prebufferFrames := 0,
                    prebufferNeedsFlush := false,
                    firstStartAfterInit := false,
                    latestResult := "", rawText := "" }
        else
          { s3 with prebufferNeedsFlush := true,
                    latestResult := "", rawText := "" }
      else s3
  else
    if s0.listening then s0
    else
      let s1 := { s0 with listening := true, latestResult := "",
                          rawText := "",
                          paddingFrames := s0.initialPaddingFrames }
      { s1 with stream := List.replicate s1.paddingFrames 0,
                paddingFrames := 0 }

/-- SherpaOnnxEngine.stop_quick, returning the finalized text and the
state left behind. When not listening both branches return the empty
string at once. Otherwise the listening flag drops, the recognizer
result (or the stored raw text when it is empty) is formatted final,
and in segment mode the recognizer is reset and the pre-roll ring
cleared. -/
def stop_quick (recResult : List Sample → String)
    (punct : Option (String → String)) (s : EngineState) :
    String × EngineState :=
  if s.hotMic then
    if !s.listening then ("", s)
    else
      let s1 := { s with listening := false }
      let finalText := recResult s1.stream
      let formatted :=
        if finalText ≠ "" then formatText punct finalText true
        else formatText punct s1.rawText true
      let s2 := { s1 with latestResult := formatted, rawText := "" }
      (pyStrip formatted, s2)
  else
    if !s.listening then ("", s)
    else
      let s1 := { s with listening := false }
      let finalText := recResult s1.stream
      let s2 := { s1 with stream := [] }
      let formatted :=
        if finalText ≠ "" then formatText punct finalText true
        else formatText punct s2.rawText true
      let s3 := { s2 with latestResult := formatted, rawText := "" }
      let s4 := resetPrebuffer s3
      (pyStrip formatted, s4)

end Sherpa

/-!
AssemblyAIEngine (engines/assemblyai.py). Only the local state visible
to stop_quick is modelled: the websocket transcriber and its
force_end_utterance call live outside the process state.
-/

namespace AAI

/-- Mutable state of AssemblyAIEngine relevant to the stop path. -/
structure EngineState where
  listening : Bool
  buffer : List String
  lastInterim : String
  micOpen : Bool
  deriving DecidableEq, Repr

/-- AssemblyAIEngine._assemble_text: finalized segments joined by
spaces, then the pending interim text (_last_partial in the source),
stripped. -/
def assembleText (s : EngineState) : String :=
  let parts : List String :=
    (if s.buffer ≠ [] then [" ".intercalate s.buffer] else []) ++
    (if s.lastInterim ≠ "" then [s.lastInterim] else [])
  pyStrip (" ".intercalate parts)

/-- AssemblyAIEngine.stop_quick: empty string at once when not
listening; otherwise drop the listening flag, close the microphone
stream, and return the assembled text. -/
def stop_quick (s : EngineState) : String × EngineState :=
  if !s.listening then ("", s)
  else
    let s1 := { s with listening := false, micOpen := false }
    (assembleText s1, s1)

end AAI

/-!
ASRDaemon (asr.py). The daemon is generic over the engine behind the
BaseEngine interface, so the model abstracts the engine as a state
type with the four operations the daemon calls. The single asyncio
event loop serializes the socket handler and the scheduled
_stop_and_maybe_paste task (the task body contains no await points, so
it runs atomically); scheduled stop tasks are modelled as a queue of
pane identifiers and their later execution as a separate event.
-/

namespace Daemon

/-- The BaseEngine operations the daemon calls. -/
structure EngineOps (ε : Type) where
  isListening : ε → Bool
  isReady : ε → Bool
  start : ε → ε
  stopQuick : ε → String × ε

/-- Daemon state: the engine, the _stopping flag, the scheduled
stop-and-paste tasks (pane identifiers, in scheduling order), and the
externally visible preview and listening-status keys. -/
structure DaemonState (ε : Type) where
  engine : ε
  stopping : Bool
  inflight : List String
  preview : String
  statusOn : Bool
  deriving DecidableEq, Repr

variable {ε : Type}

/-- Daemon state right after ASRDaemon.__init__: preview cleared,
status off, not stopping, nothing scheduled. -/
def daemonInit (e : ε) : DaemonState ε :=
  { engine := e, stopping := false, inflight := [], preview := "",
    statusOn := false }

/-- ASRDaemon.toggle. First branch: neither listening nor stopping,
either report Loading or start the engine. A toggle during stopping
returns without touching anything. Otherwise mark stopping, drop the
status flag, show the Pasting message, and schedule the asynchronous
stop-and-paste task for the pane. -/
def toggle (ops : EngineOps ε) (paneId : String) (d : DaemonState ε) :
    DaemonState ε :=
  if !(ops.isListening d.engine) && !d.stopping then
    if !(ops.isReady d.engine) then { d with preview := "Loading…" }
    else { d with statusOn := true, preview := "",
                  engine := ops.start d.engine }
  else if d.stopping then d
  else { d with stopping := true, statusOn := false,
                preview := "Pasting…",
                inflight := d.inflight ++ [paneId] }

/-- ASRDaemon._stop_and_maybe_paste, executed by the event loop for
the oldest scheduled task: call stop_quick, paste only when the
stripped text and the pane identifier are both nonempty, clear the
preview, and drop the stopping flag. Returns the pastes issued. -/
def runStop (ops : EngineOps ε) (d : DaemonState ε) :
    DaemonState ε × List (String × String) :=
  match d.inflight with
  | [] => (d, [])
  | paneId :: rest =>
    let r := ops.stopQuick d.engine
    let pastes :=
      if pyStrip r.1 ≠ "" && paneId ≠ "" then [(paneId, r.1)] else []
    ({ d with engine := r.2, preview := "", stopping := false,
              inflight := rest }, pastes)

/-- Verb dispatch of ASRDaemon._handle after tokenization: the first
token uppercased selects the command, the second token (if any) is the
pane identifier; TOGGLE always replies OK, PING replies PONG, anything
else replies ERR. -/
def handleParts (ops : EngineOps ε) (parts : List String)
    (d : DaemonState ε) : DaemonState ε × String :=
  let cmd := match parts with | [] => "" | t :: _ => pyUpper t
  let paneId := match parts with | _ :: p :: _ => p | _ => ""
  if cmd = "TOGGLE" then (toggle ops paneId d, "OK")
  else if cmd = "PING" then (d, "PONG")
  else (d, "ERR")

/-- ASRDaemon._handle on a raw request line: strip, split on
whitespace, dispatch. -/
def handle (ops : EngineOps ε) (data : String) (d : DaemonState ε) :
    DaemonState ε × String :=
  handleParts ops (pySplit (pyStrip data)) d

/-- Events the daemon event loop serializes: an incoming socket
request, or the execution of one scheduled stop-and-paste task. -/
inductive DEvent where
  | req (data : String)
  | runTask
  deriving DecidableEq, Repr

/-- One event-loop step. -/
def step (ops : EngineOps ε) (d : DaemonState ε) (ev : DEvent) :
    DaemonState ε :=
  match ev with
  | .req data => (handle ops data d).1
  | .runTask => (runStop ops d).1

/-- The daemon state after serving a list of events. -/
def run (ops : EngineOps ε) (events : List DEvent) (d : DaemonState ε) :
    DaemonState ε :=
  events.foldl (step ops) d

/-- Stop-in-flight invariant: never more than one scheduled stop task,
and the _stopping flag is up exactly while one is scheduled. -/
def stopInv (d : DaemonState ε) : Prop :=
  d.inflight.length ≤ 1 ∧ (d.stopping = true ↔ d.inflight ≠ [])

end Daemon

namespace Sherpa

/-- Operations that touch the pre-roll ring during the engine's
lifetime. -/
inductive RingOp where
  | append (c : Chunk)
  | drain
  | reset
  | doStart
  | doStop
  deriving Repr

/-- Effect of one ring-touching operation on the engine state. -/
def ringStep (recResult : List Sample → String)
    (punct : Option (String → String)) (s : EngineState)
    (op : RingOp) : EngineState :=
  match op with
  | .append c => appendPrebuffer s c
  | .drain => drainPrebuffer recResult punct s
  | .reset => resetPrebuffer s
  | .doStart => start s
  | .doStop => (stop_quick recResult punct s).2

/-- Engine state after a sequence of ring-touching operations. -/
def runRing (recResult : List Sample → String)
    (punct : Option (String → String)) (ops : List RingOp)
    (s : EngineState) : EngineState :=
  ops.foldl (ringStep recResult punct) s

/-- Ring bookkeeping invariant: the cached cumulative frame count
matches the deque contents and respects the hard cap. -/
def ringInv (s : EngineState) : Prop :=
  s.prebufferFrames = sumFrames s.prebuffer ∧
  s.prebufferFrames ≤ s.prebufferMaxFrames

end Sherpa

/-- A whitespace run: two adjacent whitespace characters. noWsRun
holds when no such pair occurs. -/
def noWsRun : List Char → Bool
  | [] => true
  | [_] => true
  | a :: b :: rest => !(isPyWs a && isPyWs b) && noWsRun (b :: rest)

/-- Hot-mic engine state the moment the capture loop has signalled
readiness: first-start flag up, some boot audio already in the ring. -/
def sC1 : Sherpa.EngineState :=
  { hotMic := true, initialized := true, listening := false,
    latestResult := "", rawText := "", paddingFrames := 0,
    prebuffer := [[1, 2], [3]], prebufferFrames := 3,
    prebufferNeedsFlush := false, firstStartAfterInit := true,
    requestReset := false, prebufferMaxFrames := 4,
    initialPaddingFrames := 2, stream := [] }

/-- Hot-mic engine state before a second or later start. -/
def sC1b : Sherpa.EngineState :=
  { sC1 with firstStartAfterInit := false, prebuffer := [[7]],
             prebufferFrames := 1 }

/-- Idle hot-mic state with an empty ring and a 3-frame cap. -/
def sC2 : Sherpa.EngineState :=
  { sC1 with prebuffer := [], prebufferFrames := 0,
             prebufferMaxFrames := 3 }

/-- Chunk sequence longer than the 3-frame cap of sC2. -/
def chunksC2 : List Chunk := [[1], [2, 3], [4, 5]]

/-- Idle AssemblyAI engine state with leftovers from a past session. -/
def aC4 : AAI.EngineState :=
  { listening := false, buffer := ["hello there"],
    lastInterim := "world", micOpen := false }

/-- Hot-mic engine state in the middle of a dictation. -/
def sC5 : Sherpa.EngineState :=
  { hotMic := true, initialized := true, listening := true,
    latestResult := "Hello", rawText := "hello", paddingFrames := 2,
    prebuffer := [[1]], prebufferFrames := 1,
    prebufferNeedsFlush := false, firstStartAfterInit := false,
    requestReset := false, prebufferMaxFrames := 4,
    initialPaddingFrames := 2, stream := [0, 0, 1] }

/-- Operation sequence that overflows the 3-frame cap of sC2 and mixes
in drains, resets, and start and stop transitions. -/
def opsC6 : List Sherpa.RingOp :=
  [.append [1, 2], .append [3, 4], .drain, .append [5],
   .doStart, .append [6, 7, 8, 9], .doStop, .reset, .append [1]]

/-- Engine operations of a minimal BaseEngine implementation used to
instantiate the daemon theorems: state is the listening flag itself. -/
def opsW : Daemon.EngineOps Bool :=
  { isListening := fun b => b, isReady := fun _ => true,
    start := fun _ => true, stopQuick := fun _ => ("hi", false) }

/-- One TOGGLE request arriving while the engine is listening, which
schedules a stop task. -/
def eventsW : List Daemon.DEvent := [.req "TOGGLE %1"]

/-- Engine operations whose stop_quick yields whitespace-only text. -/
def opsW8 : Daemon.EngineOps Bool :=
  { isListening := fun b => b, isReady := fun _ => true,
    start := fun _ => true, stopQuick := fun _ => ("  ", false) }

/-- Daemon state with one scheduled stop task for pane %3. -/
def dW8 : Daemon.DaemonState Bool :=
  { engine := true, stopping := true, inflight := ["%3"],
    preview := "Pasting…", statusOn := false }

namespace Sherpa

theorem sumFrames_nil : sumFrames [] = 0 := rfl

theorem sumFrames_cons (c : Chunk) (l : List Chunk) :
    sumFrames (c :: l) = c.length + sumFrames l := by
  simp [sumFrames]

theorem sumFrames_append_single (l : List Chunk) (c : Chunk) :
    sumFrames (l ++ [c]) = sumFrames l + c.length := by
  simp [sumFrames]

theorem evictOldest_eq (cap : Nat) (l : List Chunk) :
    evictOldest l (sumFrames l) cap =
      (recentSuffix cap l, sumFrames (recentSuffix cap l)) := by
  induction l with
  | nil => simp [evictOldest, recentSuffix]
  | cons c rest ih =>
    by_cases h : cap < sumFrames (c :: rest)
    · have hsub : sumFrames (c :: rest) - c.length = sumFrames rest := by
        rw [sumFrames_cons]; omega
      simp only [evictOldest, recentSuffix, h, if_pos, hsub, ih]
    · simp [evictOldest, recentSuffix, h]

theorem recentSuffix_le (cap : Nat) (l : List Chunk) :
    sumFrames (recentSuffix cap l) ≤ cap := by
  induction l with
  | nil => simp [recentSuffix, sumFrames]
  | cons c rest ih =>
    by_cases h : cap < sumFrames (c :: rest)
    · simpa [recentSuffix, h] using ih
    · simp [recentSuffix, h]; omega

theorem recentSuffix_of_le {cap : Nat} {l : List Chunk}
    (h : sumFrames l ≤ cap) : recentSuffix cap l = l := by
  cases l with
  | nil => rfl
  | cons c rest => simp [recentSuffix, Nat.not_lt.mpr h]

theorem recentSuffix_suffix (cap : Nat) (l : List Chunk) :
    recentSuffix cap l <:+ l := by
  induction l with
  | nil => simp [recentSuffix]
  | cons c rest ih =>
    by_cases h : cap < sumFrames (c :: rest)
    · have : recentSuffix cap (c :: rest) = recentSuffix cap rest := by
        simp [recentSuffix, h]
      rw [this]
      exact ih.trans (List.suffix_cons c rest)
    · have : recentSuffix cap (c :: rest) = c :: rest := by
        simp [recentSuffix, h]
      rw [this]

theorem recentSuffix_max {cap : Nat} {l t : List Chunk}
    (ht : t <:+ l) (hle : sumFrames t ≤ cap) :
    t <:+ recentSuffix cap l := by
  induction l with
  | nil =>
    simp only [recentSuffix]
    exact ht
  | cons c rest ih =>
    by_cases h : cap < sumFrames (c :: rest)
    · have hne : t ≠ c :: rest := by
        intro he; rw [he] at hle; omega
      have ht2 : t <:+ rest := by
        rcases List.suffix_cons_iff.mp ht with h1 | h2
        · exact absurd h1 hne
        · exact h2
      have : recentSuffix cap (c :: rest) = recentSuffix cap rest := by
        simp [recentSuffix, h]
      rw [this]
      exact ih ht2
    · have : recentSuffix cap (c :: rest) = c :: rest := by
        simp [recentSuffix, h]
      rw [this]
      exact ht

theorem recentSuffix_zero {l : List Chunk} (h : ∀ x ∈ l, x ≠ []) :
    recentSuffix 0 l = [] := by
  induction l with
  | nil => rfl
  | cons c rest ih =>
    have hc : c ≠ [] := h c (List.mem_cons_self c rest)
    have hlen : 0 < c.length := List.length_pos.mpr hc
    have hlt : 0 < sumFrames (c :: rest) := by
      rw [sumFrames_cons]; omega
    have : recentSuffix 0 (c :: rest) = recentSuffix 0 rest := by
      simp [recentSuffix, hlt]
    rw [this]
    exact ih (fun x hx => h x (List.mem_cons_of_mem c hx))

theorem recentSuffix_append_recentSuffix (cap : Nat) (l : List Chunk)
    (c : Chunk) :
    recentSuffix cap (recentSuffix cap l ++ [c]) =
      recentSuffix cap (l ++ [c]) := by
  induction l with
  | nil => simp [recentSuffix]
  | cons a t ih =>
    by_cases h : cap < sumFrames (a :: t)
    · have h1 : recentSuffix cap (a :: t) = recentSuffix cap t := by
        simp [recentSuffix, h]
      have h2 : cap < sumFrames (a :: (t ++ [c])) := by
        rw [sumFrames_cons] at h ⊢
        rw [sumFrames_append_single]
        omega
      have h3 : (a :: t) ++ [c] = a :: (t ++ [c]) := rfl
      rw [h1, ih, h3]
      simp [recentSuffix, h2]
    · have h1 : recentSuffix cap (a :: t) = a :: t := by
        simp [recentSuffix, h]
      rw [h1]

theorem appendPrebuffer_tracked (s : EngineState) (l : List Chunk)
    (c : Chunk) (hl : ∀ x ∈ l, x ≠ []) (hc : c ≠ [])
    (hb : s.prebuffer = recentSuffix s.prebufferMaxFrames l)
    (hf : s.prebufferFrames = sumFrames s.prebuffer) :
    (appendPrebuffer s c).prebuffer =
      recentSuffix s.prebufferMaxFrames (l ++ [c]) ∧
    (appendPrebuffer s c).prebufferFrames =
      sumFrames ((appendPrebuffer s c).prebuffer) ∧
    (appendPrebuffer s c).prebufferMaxFrames = s.prebufferMaxFrames := by
  have hlc : ∀ x ∈ l ++ [c], x ≠ [] := by
    intro x hx
    rcases List.mem_append.mp hx with h1 | h2
    · exact hl x h1
    · rw [List.mem_singleton.mp h2]; exact hc
  by_cases h0 : s.prebufferMaxFrames = 0
  · have hA : appendPrebuffer s c = s := by
      simp [appendPrebuffer, h0]
    rw [hA]
    refine ⟨?_, hf, rfl⟩
    rw [hb, h0, recentSuffix_zero hl, recentSuffix_zero hlc]
  · have hclen : ¬ c.length = 0 := by
      simpa [List.length_eq_zero] using hc
    have hsum : s.prebufferFrames + c.length =
        sumFrames (s.prebuffer ++ [c]) := by
      rw [sumFrames_append_single, hf]
    have hA : appendPrebuffer s c =
        { s with
          prebuffer :=
            recentSuffix s.prebufferMaxFrames (s.prebuffer ++ [c]),
          prebufferFrames :=
            sumFrames
              (recentSuffix s.prebufferMaxFrames (s.prebuffer ++ [c])) } := by
      unfold appendPrebuffer
      rw [if_neg h0, if_neg hclen, hsum, evictOldest_eq]
    rw [hA]
    refine ⟨?_, rfl, rfl⟩
    show recentSuffix s.prebufferMaxFrames (s.prebuffer ++ [c]) =
      recentSuffix s.prebufferMaxFrames (l ++ [c])
    rw [hb, recentSuffix_append_recentSuffix]

theorem foldl_appendPrebuffer (chunks : List Chunk) :
    ∀ (l : List Chunk) (s : EngineState),
    (∀ x ∈ chunks, x ≠ []) → (∀ x ∈ l, x ≠ []) →
    s.prebuffer = recentSuffix s.prebufferMaxFrames l →
    s.prebufferFrames = sumFrames s.prebuffer →
    (chunks.foldl appendPrebuffer s).prebuffer =
      recentSuffix s.prebufferMaxFrames (l ++ chunks) ∧
    (chunks.foldl appendPrebuffer s).prebufferFrames =
      sumFrames ((chunks.foldl appendPrebuffer s).prebuffer) ∧
    (chunks.foldl appendPrebuffer s).prebufferMaxFrames =
      s.prebufferMaxFrames := by
  induction chunks with
  | nil =>
    intro l s _ _ hb hf
    simpa using ⟨hb, hf⟩
  | cons c cs ih =>
    intro l s hcs hl hb hf
    have hc : c ≠ [] := hcs c (List.mem_cons_self c cs)
    have hcs2 : ∀ x ∈ cs, x ≠ [] :=
      fun x hx => hcs x (List.mem_cons_of_mem c hx)
    have hlc : ∀ x ∈ l ++ [c], x ≠ [] := by
      intro x hx
      rcases List.mem_append.mp hx with h1 | h2
      · exact hl x h1
      · rw [List.mem_singleton.mp h2]; exact hc
    obtain ⟨hb1, hf1, hm1⟩ := appendPrebuffer_tracked s l c hl hc hb hf
    have step := ih (l ++ [c]) (appendPrebuffer s c) hcs2 hlc
      (by rw [hm1]; exact hb1) hf1
    rw [List.foldl_cons]
    have hassoc : l ++ [c] ++ cs = l ++ c :: cs := by simp
    rw [hassoc, hm1] at step
    exact step

theorem appendPrebuffer_ringInv (s : EngineState) (c : Chunk)
    (h : ringInv s) :
    ringInv (appendPrebuffer s c) ∧
    (appendPrebuffer s c).prebufferMaxFrames = s.prebufferMaxFrames := by
  obtain ⟨hf, hle⟩ := h
  by_cases h0 : s.prebufferMaxFrames = 0
  · have hA : appendPrebuffer s c = s := by simp [appendPrebuffer, h0]
    rw [hA]; exact ⟨⟨hf, hle⟩, rfl⟩
  by_cases hclen : c.length = 0
  · have hA : appendPrebuffer s c = s := by
      simp [appendPrebuffer, h0, hclen]
    rw [hA]; exact ⟨⟨hf, hle⟩, rfl⟩
  · have hsum : s.prebufferFrames + c.length =
        sumFrames (s.prebuffer ++ [c]) := by
      rw [sumFrames_append_single, hf]
    have hA : appendPrebuffer s c =
        { s with
          prebuffer :=
            recentSuffix s.prebufferMaxFrames (s.prebuffer ++ [c]),
          prebufferFrames :=
            sumFrames
              (recentSuffix s.prebufferMaxFrames (s.prebuffer ++ [c])) } := by
      unfold appendPrebuffer
      rw [if_neg h0, if_neg hclen, hsum, evictOldest_eq]
    rw [hA]
    exact ⟨⟨rfl, recentSuffix_le _ _⟩, rfl⟩

theorem processSamples_ring (recResult : List Sample → String)
    (punct : Option (String → String)) (s : EngineState) (c : Chunk) :
    (processSamples recResult punct s c).prebuffer = s.prebuffer ∧
    (processSamples recResult punct s c).prebufferFrames =
      s.prebufferFrames ∧
    (processSamples recResult punct s c).prebufferMaxFrames =
      s.prebufferMaxFrames :=
  ⟨rfl, rfl, rfl⟩

theorem foldl_processSamples_ring (recResult : List Sample → String)
    (punct : Option (String → String)) (pending : List Chunk) :
    ∀ s : EngineState,
    (pending.foldl (processSamples recResult punct) s).prebuffer =
      s.prebuffer ∧
    (pending.foldl (processSamples recResult punct) s).prebufferFrames =
      s.prebufferFrames ∧
    (pending.foldl (processSamples recResult punct) s).prebufferMaxFrames =
      s.prebufferMaxFrames := by
  induction pending with
  | nil => intro s; exact ⟨rfl, rfl, rfl⟩
  | cons c cs ih =>
    intro s
    simpa using ih (processSamples recResult punct s c)

theorem drainPrebuffer_ringInv (recResult : List Sample → String)
    (punct : Option (String → String)) (s : EngineState)
    (h : ringInv s) :
    ringInv (drainPrebuffer recResult punct s) ∧
    (drainPrebuffer recResult punct s).prebufferMaxFrames =
      s.prebufferMaxFrames := by
  obtain ⟨hf, hle⟩ := h
  by_cases h0 : s.prebufferMaxFrames = 0
  · have hA : drainPrebuffer recResult punct s = s := by
      simp [drainPrebuffer, h0]
    rw [hA]; exact ⟨⟨hf, hle⟩, rfl⟩
  by_cases hb : s.prebuffer = []
  · have hA : drainPrebuffer recResult punct s =
        { s with prebufferNeedsFlush := false } := by
      simp [drainPrebuffer, h0, hb]
    rw [hA]; exact ⟨⟨hf, hle⟩, rfl⟩
  · have hA : drainPrebuffer recResult punct s =
        s.prebuffer.foldl (processSamples recResult punct)
          { s with prebuffer := [], prebufferFrames := 0,
                   prebufferNeedsFlush := false } := by
      simp [drainPrebuffer, h0, hb]
    rw [hA]
    obtain ⟨h1, h2, h3⟩ := foldl_processSamples_ring recResult punct
      s.prebuffer { s with prebuffer := [], prebufferFrames := 0,
                           prebufferNeedsFlush := false }
    refine ⟨⟨?_, ?_⟩, ?_⟩
    · rw [h1, h2]; rfl
    · rw [h2]; exact Nat.zero_le _
    · rw [h3]

theorem resetPrebuffer_ringInv (s : EngineState) :
    ringInv (resetPrebuffer s) ∧
    (resetPrebuffer s).prebufferMaxFrames = s.prebufferMaxFrames :=
  ⟨⟨rfl, Nat.zero_le _⟩, rfl⟩

theorem start_ringFields (s : EngineState) :
    ((start s).prebuffer = s.prebuffer ∧
     (start s).prebufferFrames = s.prebufferFrames ∧
     (start s).prebufferMaxFrames = s.prebufferMaxFrames) ∨
    ((start s).prebuffer = [] ∧ (start s).prebufferFrames = 0 ∧
     (start s).prebufferMaxFrames = s.prebufferMaxFrames) := by
  simp only [start, loadModels, handlePendingReset]
  split_ifs <;> simp

theorem start_ringInv (s : EngineState) (h : ringInv s) :
    ringInv (start s) ∧
    (start s).prebufferMaxFrames = s.prebufferMaxFrames := by
  obtain ⟨hf, hle⟩ := h
  rcases start_ringFields s with ⟨h1, h2, h3⟩ | ⟨h1, h2, h3⟩
  · exact ⟨⟨by rw [h1, h2, hf], by rw [h2, h3]; exact hle⟩, h3⟩
  · exact ⟨⟨by rw [h1, h2]; rfl, by rw [h2]; exact Nat.zero_le _⟩, h3⟩

theorem stop_quick_ringFields (recResult : List Sample → String)
    (punct : Option (String → String)) (s : EngineState) :
    (((stop_quick recResult punct s).2.prebuffer = s.prebuffer ∧
      (stop_quick recResult punct s).2.prebufferFrames =
        s.prebufferFrames) ∨
     ((stop_quick recResult punct s).2.prebuffer = [] ∧
      (stop_quick recResult punct s).2.prebufferFrames = 0)) ∧
    (stop_quick recResult punct s).2.prebufferMaxFrames =
      s.prebufferMaxFrames := by
  simp only [stop_quick, resetPrebuffer]
  split_ifs <;> simp

theorem stop_quick_ringInv (recResult : List Sample → String)
    (punct : Option (String → String)) (s : EngineState)
    (h : ringInv s) :
    ringInv (stop_quick recResult punct s).2 ∧
    (stop_quick recResult punct s).2.prebufferMaxFrames =
      s.prebufferMaxFrames := by
  obtain ⟨hf, hle⟩ := h
  obtain ⟨hc, h3⟩ := stop_quick_ringFields recResult punct s
  rcases hc with ⟨h1, h2⟩ | ⟨h1, h2⟩
  · exact ⟨⟨by rw [h1, h2, hf], by rw [h2, h3]; exact hle⟩, h3⟩
  · exact ⟨⟨by rw [h1, h2]; rfl, by rw [h2]; exact Nat.zero_le _⟩, h3⟩

theorem ringStep_ringInv (recResult : List Sample → String)
    (punct : Option (String → String)) (s : EngineState) (op : RingOp)
    (h : ringInv s) :
    ringInv (ringStep recResult punct s op) ∧
    (ringStep recResult punct s op).prebufferMaxFrames =
      s.prebufferMaxFrames := by
  cases op with
  | append c => exact appendPrebuffer_ringInv s c h
  | drain => exact drainPrebuffer_ringInv recResult punct s h
  | reset => exact resetPrebuffer_ringInv s
  | doStart => exact start_ringInv s h
  | doStop => exact stop_quick_ringInv recResult punct s h

theorem runRing_ringInv (recResult : List Sample → String)
    (punct : Option (String → String)) (ops : List RingOp) :
    ∀ s : EngineState, ringInv s →
    ringInv (runRing recResult punct ops s) ∧
    (runRing recResult punct ops s).prebufferMaxFrames =
      s.prebufferMaxFrames := by
  induction ops with
  | nil => intro s h; exact ⟨h, rfl⟩
  | cons op rest ih =>
    intro s h
    obtain ⟨h1, h2⟩ := ringStep_ringInv recResult punct s op h
    obtain ⟨h3, h4⟩ := ih (ringStep recResult punct s op) h1
    exact ⟨h3, by rw [runRing] at h4 ⊢; rw [List.foldl_cons, h4, h2]⟩

end Sherpa

namespace Sherpa

theorem start_noop_of_listening (s : EngineState)
    (hinit : s.initialized = true) (hl : s.listening = true) :
    start s = s := by
  simp [start, loadModels, hinit, hl]

theorem start_listening (s : EngineState) : (start s).listening = true := by
  simp only [start, loadModels, handlePendingReset]
  split_ifs <;> simp_all

theorem start_initialized (s : EngineState) :
    (start s).initialized = true := by
  simp only [start, loadModels, handlePendingReset]
  split_ifs <;> simp_all

end Sherpa

/-!
Claim theorems for the SherpaOnnxEngine.
-/

/-- C1: in hot-mic mode with a nonzero pre-roll cap, the first start
after the engine becomes ready clears the pre-roll ring (chunks and
frame count empty, flush flag false) and clears the first-start flag,
while every subsequent start while not listening marks the pre-roll
for drainage instead. -/
theorem claim_C1 (s : Sherpa.EngineState) (hhot : s.hotMic = true)
    (hinit : s.initialized = true) (hcap : s.prebufferMaxFrames ≠ 0)
    (hnl : s.listening = false) :
    (s.firstStartAfterInit = true →
      (Sherpa.start s).prebuffer = [] ∧
      (Sherpa.start s).prebufferFrames = 0 ∧
      (Sherpa.start s).prebufferNeedsFlush = false ∧
      (Sherpa.start s).firstStartAfterInit = false) ∧
    (s.firstStartAfterInit = false →
      (Sherpa.start s).prebufferNeedsFlush = true ∧
      (Sherpa.start s).prebuffer = s.prebuffer ∧
      (Sherpa.start s).prebufferFrames = s.prebufferFrames) := by
  constructor <;> intro hfs <;>
    simp [Sherpa.start, Sherpa.loadModels, Sherpa.handlePendingReset,
      hinit, hhot, hnl, hcap, hfs]

theorem claim_C1_witness :
    (sC1.hotMic = true ∧ sC1.initialized = true ∧
      sC1.prebufferMaxFrames ≠ 0 ∧ sC1.listening = false ∧
      sC1.firstStartAfterInit = true ∧
      (Sherpa.start sC1).prebuffer = [] ∧
      (Sherpa.start sC1).prebufferFrames = 0 ∧
      (Sherpa.start sC1).prebufferNeedsFlush = false ∧
      (Sherpa.start sC1).firstStartAfterInit = false) ∧
    (sC1b.firstStartAfterInit = false ∧
      (Sherpa.start sC1b).prebufferNeedsFlush = true) :=
  ⟨⟨rfl, rfl, by decide, rfl, rfl,
    (claim_C1 sC1 rfl rfl (by decide) rfl).1 rfl⟩,
   ⟨rfl, ((claim_C1 sC1b rfl rfl (by decide) rfl).2 rfl).1⟩⟩

/-- C2: feeding a chunk sequence into an initially empty pre-roll ring
keeps exactly the whole sequence when its total frame count fits under
the cap, and otherwise keeps the maximal recent suffix that fits: the
kept chunks are a suffix of the input, their total is under the cap,
and every cap-fitting suffix of the input is a suffix of what is
kept. -/
theorem claim_C2 (s0 : Sherpa.EngineState) (chunks : List Chunk)
    (hb : s0.prebuffer = []) (hf : s0.prebufferFrames = 0)
    (hne : ∀ c ∈ chunks, c ≠ []) :
    (Sherpa.sumFrames chunks ≤ s0.prebufferMaxFrames →
      (chunks.foldl Sherpa.appendPrebuffer s0).prebuffer = chunks) ∧
    (chunks.foldl Sherpa.appendPrebuffer s0).prebuffer <:+ chunks ∧
    Sherpa.sumFrames (chunks.foldl Sherpa.appendPrebuffer s0).prebuffer ≤
      s0.prebufferMaxFrames ∧
    (∀ t, t <:+ chunks → Sherpa.sumFrames t ≤ s0.prebufferMaxFrames →
      t <:+ (chunks.foldl Sherpa.appendPrebuffer s0).prebuffer) := by
  have h0 : s0.prebuffer = Sherpa.recentSuffix s0.prebufferMaxFrames [] := by
    rw [hb]; rfl
  have h1 : s0.prebufferFrames = Sherpa.sumFrames s0.prebuffer := by
    rw [hf, hb]; rfl
  obtain ⟨hbuf, _, _⟩ := Sherpa.foldl_appendPrebuffer chunks [] s0 hne
    (by intro x hx; cases hx) h0 h1
  rw [List.nil_append] at hbuf
  refine ⟨?_, ?_, ?_, ?_⟩
  · intro hle; rw [hbuf]; exact Sherpa.recentSuffix_of_le hle
  · rw [hbuf]; exact Sherpa.recentSuffix_suffix _ _
  · rw [hbuf]; exact Sherpa.recentSuffix_le _ _
  · intro t ht hle; rw [hbuf]; exact Sherpa.recentSuffix_max ht hle

theorem claim_C2_witness :
    sC2.prebuffer = [] ∧ sC2.prebufferFrames = 0 ∧
    (∀ c ∈ chunksC2, c ≠ []) ∧
    (chunksC2.foldl Sherpa.appendPrebuffer sC2).prebuffer <:+ chunksC2 ∧
    Sherpa.sumFrames (chunksC2.foldl Sherpa.appendPrebuffer sC2).prebuffer ≤
      sC2.prebufferMaxFrames :=
  ⟨rfl, rfl, by decide,
   (claim_C2 sC2 chunksC2 rfl rfl (by decide)).2.1,
   (claim_C2 sC2 chunksC2 rfl rfl (by decide)).2.2.1⟩

/-- C4: stop_quick on a non-listening engine returns the empty string,
for the sherpa-onnx engine (either mode) and the AssemblyAI engine. -/
theorem claim_C4 (recResult : List Sample → String)
    (punct : Option (String → String)) (s : Sherpa.EngineState)
    (a : AAI.EngineState) (hs : s.listening = false)
    (ha : a.listening = false) :
    (Sherpa.stop_quick recResult punct s).1 = "" ∧
    (AAI.stop_quick a).1 = "" := by
  constructor
  · simp [Sherpa.stop_quick, hs]
  · simp [AAI.stop_quick, ha]

theorem claim_C4_witness :
    sC1.listening = false ∧ aC4.listening = false ∧
    (Sherpa.stop_quick (fun _ => "result") none sC1).1 = "" ∧
    (AAI.stop_quick aC4).1 = "" :=
  ⟨rfl, rfl, (claim_C4 (fun _ => "result") none sC1 aC4 rfl rfl).1,
   (claim_C4 (fun _ => "result") none sC1 aC4 rfl rfl).2⟩

/-- C5: start on an engine that is already listening is a no-op on the
whole engine state, and start is idempotent, so a repeated start
yields the same single listening transition. -/
theorem claim_C5 (s : Sherpa.EngineState) (hinit : s.initialized = true) :
    (s.listening = true → Sherpa.start s = s) ∧
    Sherpa.start (Sherpa.start s) = Sherpa.start s := by
  refine ⟨fun hl => Sherpa.start_noop_of_listening s hinit hl, ?_⟩
  exact Sherpa.start_noop_of_listening (Sherpa.start s)
    (Sherpa.start_initialized s) (Sherpa.start_listening s)

theorem claim_C5_witness :
    sC5.initialized = true ∧ sC5.listening = true ∧
    Sherpa.start sC5 = sC5 :=
  ⟨rfl, rfl, (claim_C5 sC5 rfl).1 rfl⟩

/-- C6: starting from an empty pre-roll ring, the cumulative frame
count stays at or under the hard cap, and matches the ring contents,
after every sequence of completed append, drain, clear, start, and
stop operations. -/
theorem claim_C6 (recResult : List Sample → String)
    (punct : Option (String → String)) (ops : List Sherpa.RingOp)
    (s0 : Sherpa.EngineState) (hb : s0.prebuffer = [])
    (hf : s0.prebufferFrames = 0) :
    (Sherpa.runRing recResult punct ops s0).prebufferFrames ≤
      s0.prebufferMaxFrames ∧
    (Sherpa.runRing recResult punct ops s0).prebufferFrames =
      Sherpa.sumFrames (Sherpa.runRing recResult punct ops s0).prebuffer := by
  have hinv : Sherpa.ringInv s0 :=
    ⟨by rw [hf, hb]; rfl, by rw [hf]; exact Nat.zero_le _⟩
  obtain ⟨⟨h1, h2⟩, h3⟩ := Sherpa.runRing_ringInv recResult punct ops s0 hinv
  exact ⟨by rw [← h3]; exact h2, h1⟩

theorem claim_C6_witness :
    sC2.prebuffer = [] ∧ sC2.prebufferFrames = 0 ∧
    (Sherpa.runRing (fun _ => "t") none opsC6 sC2).prebufferFrames ≤
      sC2.prebufferMaxFrames :=
  ⟨rfl, rfl, (claim_C6 (fun _ => "t") none opsC6 sC2 rfl rfl).1⟩

namespace Daemon

variable {ε : Type}

theorem stopInv_init (e : ε) : stopInv (daemonInit e) := by
  constructor <;> simp [daemonInit]

theorem toggle_stopping_noop (ops : EngineOps ε) (paneId : String)
    (d : DaemonState ε) (hs : d.stopping = true) :
    toggle ops paneId d = d := by
  simp [toggle, hs]

theorem toggle_stopInv (ops : EngineOps ε) (paneId : String)
    (d : DaemonState ε) (h : stopInv d) :
    stopInv (toggle ops paneId d) := by
  obtain ⟨h1, h2⟩ := h
  by_cases hs : d.stopping = true
  · rw [toggle_stopping_noop ops paneId d hs]; exact ⟨h1, h2⟩
  · have hs' : d.stopping = false := by simpa using hs
    have hq : d.inflight = [] := by
      by_contra hne
      have hx := h2.mpr hne
      rw [hs'] at hx
      exact absurd hx (by simp)
    by_cases hl : ops.isListening d.engine = true
    · have : toggle ops paneId d =
          { d with stopping := true, statusOn := false,
                   preview := "Pasting…",
                   inflight := d.inflight ++ [paneId] } := by
        simp [toggle, hs', hl]
      rw [this]
      constructor <;> simp [hq]
    · have hl' : ops.isListening d.engine = false := by simpa using hl
      by_cases hr : ops.isReady d.engine = true
      · have : toggle ops paneId d =
            { d with statusOn := true, preview := "",
                     engine := ops.start d.engine } := by
          simp [toggle, hs', hl', hr]
        rw [this]; exact ⟨h1, h2⟩
      · have hr' : ops.isReady d.engine = false := by simpa using hr
        have : toggle ops paneId d = { d with preview := "Loading…" } := by
          simp [toggle, hs', hl', hr']
        rw [this]; exact ⟨h1, h2⟩

theorem runStop_stopInv (ops : EngineOps ε) (d : DaemonState ε)
    (h : stopInv d) : stopInv (runStop ops d).1 := by
  obtain ⟨h1, h2⟩ := h
  cases hq : d.inflight with
  | nil =>
    have : (runStop ops d).1 = d := by simp [runStop, hq]
    rw [this]; exact ⟨h1, h2⟩
  | cons p rest =>
    have hrest : rest = [] := by
      rw [hq] at h1
      simpa using h1
    subst hrest
    constructor <;> simp [runStop, hq]

theorem handleParts_stopInv (ops : EngineOps ε) (parts : List String)
    (d : DaemonState ε) (h : stopInv d) :
    stopInv (handleParts ops parts d).1 := by
  simp only [handleParts]
  split_ifs
  · exact toggle_stopInv ops _ d h
  · exact h
  · exact h

theorem step_stopInv (ops : EngineOps ε) (d : DaemonState ε)
    (ev : DEvent) (h : stopInv d) : stopInv (step ops d ev) := by
  cases ev with
  | req data => exact handleParts_stopInv ops _ d h
  | runTask => exact runStop_stopInv ops d h

theorem run_stopInv (ops : EngineOps ε) (events : List DEvent) :
    ∀ d : DaemonState ε, stopInv d → stopInv (run ops events d) := by
  induction events with
  | nil => intro d h; exact h
  | cons ev rest ih =>
    intro d h
    exact ih (step ops d ev) (step_stopInv ops d ev h)

end Daemon

/-!
Claim theorems for the ASRDaemon control server.
-/

/-- C3: over any sequence of daemon events starting from the initial
state, at most one stop task is ever in flight, and a TOGGLE that
arrives while one is in flight leaves the daemon and engine state
untouched and still replies OK. -/
theorem claim_C3 {ε : Type} (ops : Daemon.EngineOps ε) (e : ε)
    (events : List Daemon.DEvent) (paneId : String) :
    (Daemon.run ops events (Daemon.daemonInit e)).inflight.length ≤ 1 ∧
    ((Daemon.run ops events (Daemon.daemonInit e)).inflight ≠ [] →
      Daemon.handleParts ops ["TOGGLE", paneId]
          (Daemon.run ops events (Daemon.daemonInit e)) =
        (Daemon.run ops events (Daemon.daemonInit e), "OK")) := by
  obtain ⟨h1, h2⟩ :=
    Daemon.run_stopInv ops events (Daemon.daemonInit e)
      (Daemon.stopInv_init e)
  refine ⟨h1, fun hne => ?_⟩
  have hs : (Daemon.run ops events (Daemon.daemonInit e)).stopping = true :=
    h2.mpr hne
  have hT : pyUpper "TOGGLE" = "TOGGLE" := by decide
  simp [Daemon.handleParts, hT,
    Daemon.toggle_stopping_noop ops paneId _ hs]

theorem claim_C3_witness :
    (Daemon.run opsW eventsW (Daemon.daemonInit true)).inflight ≠ [] ∧
    Daemon.handleParts opsW ["TOGGLE", "%2"]
        (Daemon.run opsW eventsW (Daemon.daemonInit true)) =
      (Daemon.run opsW eventsW (Daemon.daemonInit true), "OK") :=
  ⟨by decide, (claim_C3 opsW true eventsW "%2").2 (by decide)⟩

/-- C8: the stop-and-paste task pastes nothing when the text returned
by stop_quick strips to the empty string, and every paste it does
deliver carries the nonempty stop_quick text. -/
theorem claim_C8 {ε : Type} (ops : Daemon.EngineOps ε)
    (d : Daemon.DaemonState ε) :
    (pyStrip (ops.stopQuick d.engine).1 = "" →
      (Daemon.runStop ops d).2 = []) ∧
    (∀ pr ∈ (Daemon.runStop ops d).2,
      pyStrip (ops.stopQuick d.engine).1 ≠ "" ∧
      pr.2 = (ops.stopQuick d.engine).1) := by
  cases hq : d.inflight with
  | nil => simp [Daemon.runStop, hq]
  | cons p rest =>
    constructor
    · intro h
      simp [Daemon.runStop, hq, h]
    · intro pr hpr
      by_cases h : pyStrip (ops.stopQuick d.engine).1 = ""
      · simp [Daemon.runStop, hq, h] at hpr
      · simp [Daemon.runStop, hq, h] at hpr
        by_cases hp : p = ""
        · simp [hp] at hpr
        · simp [hp] at hpr
          exact ⟨h, by rw [hpr]⟩

theorem claim_C8_witness :
    pyStrip (opsW8.stopQuick dW8.engine).1 = "" ∧
    (Daemon.runStop opsW8 dW8).2 = [] :=
  ⟨by decide, (claim_C8 opsW8 dW8).1 (by decide)⟩

/-- C9: request verbs are matched case-insensitively: a first token
that uppercases to TOGGLE or PING is handled exactly like the
uppercase spelling, replying OK or PONG respectively. -/
theorem claim_C9 {ε : Type} (ops : Daemon.EngineOps ε)
    (d : Daemon.DaemonState ε) (v : String) (rest : List String) :
    (pyUpper v = "TOGGLE" →
      Daemon.handleParts ops (v :: rest) d =
        Daemon.handleParts ops ("TOGGLE" :: rest) d ∧
      (Daemon.handleParts ops (v :: rest) d).2 = "OK") ∧
    (pyUpper v = "PING" →
      Daemon.handleParts ops (v :: rest) d =
        Daemon.handleParts ops ("PING" :: rest) d ∧
      (Daemon.handleParts ops (v :: rest) d).2 = "PONG") := by
  have hT : pyUpper "TOGGLE" = "TOGGLE" := by decide
  have hP : pyUpper "PING" = "PING" := by decide
  constructor
  · intro h
    cases rest <;> simp [Daemon.handleParts, h, hT]
  · intro h
    cases rest <;> simp [Daemon.handleParts, h, hP]

theorem claim_C9_witness :
    pyUpper "tOgGlE" = "TOGGLE" ∧ pyUpper "pInG" = "PING" ∧
    Daemon.handleParts opsW ["tOgGlE", "%1"] (Daemon.daemonInit true) =
      Daemon.handleParts opsW ["TOGGLE", "%1"] (Daemon.daemonInit true) ∧
    (Daemon.handleParts opsW ["pInG"] (Daemon.daemonInit true)).2 =
      "PONG" :=
  ⟨by decide, by decide,
   ((claim_C9 opsW (Daemon.daemonInit true) "tOgGlE" ["%1"]).1
      (by decide)).1,
   ((claim_C9 opsW (Daemon.daemonInit true) "pInG" []).2 (by decide)).2⟩

/-- C10: a TOGGLE with no pane token while listening still stops
dictation: the reply is OK, a stop task for the empty pane is
scheduled, and when it runs stop_quick executes and the preview is
cleared, yet no paste is delivered anywhere and no error is
reported. -/
theorem claim_C10 {ε : Type} (ops : Daemon.EngineOps ε)
    (d : Daemon.DaemonState ε) (hl : ops.isListening d.engine = true)
    (hs : d.stopping = false) (hq : d.inflight = []) :
    (Daemon.handleParts ops ["TOGGLE"] d).2 = "OK" ∧
    (Daemon.handleParts ops ["TOGGLE"] d).1.stopping = true ∧
    (Daemon.handleParts ops ["TOGGLE"] d).1.inflight = [""] ∧
    (Daemon.handleParts ops ["TOGGLE"] d).1.preview = "Pasting…" ∧
    (Daemon.runStop ops (Daemon.handleParts ops ["TOGGLE"] d).1).2 = [] ∧
    (Daemon.runStop ops
        (Daemon.handleParts ops ["TOGGLE"] d).1).1.preview = "" ∧
    (Daemon.runStop ops
        (Daemon.handleParts ops ["TOGGLE"] d).1).1.engine =
      (ops.stopQuick d.engine).2 ∧
    (Daemon.runStop ops
        (Daemon.handleParts ops ["TOGGLE"] d).1).1.stopping = false := by
  have hT : pyUpper "TOGGLE" = "TOGGLE" := by decide
  have hd1 : (Daemon.handleParts ops ["TOGGLE"] d).1 =
      { d with stopping := true, statusOn := false,
               preview := "Pasting…", inflight := [""] } := by
    simp [Daemon.handleParts, Daemon.toggle, hT, hl, hs, hq]
  rw [hd1]
  refine ⟨?_, rfl, rfl, rfl, ?_, ?_, ?_, ?_⟩
  · simp [Daemon.handleParts, hT]
  all_goals simp [Daemon.runStop]

theorem claim_C10_witness :
    opsW.isListening (Daemon.daemonInit true).engine = true ∧
    (Daemon.daemonInit (ε := Bool) true).stopping = false ∧
    (Daemon.daemonInit (ε := Bool) true).inflight = [] ∧
    (Daemon.runStop opsW
        (Daemon.handleParts opsW ["TOGGLE"]
          (Daemon.daemonInit true)).1).2 = [] ∧
    (Daemon.runStop opsW
        (Daemon.handleParts opsW ["TOGGLE"]
          (Daemon.daemonInit true)).1).1.preview = "" :=
  ⟨rfl, rfl, rfl,
   (claim_C10 opsW (Daemon.daemonInit true) rfl rfl rfl).2.2.2.2.1,
   (claim_C10 opsW (Daemon.daemonInit true) rfl rfl rfl).2.2.2.2.2.1⟩

theorem noWsRun_append_of_nonws (w rest : List Char)
    (hw : ∀ c ∈ w, isPyWs c = false) (hrest : noWsRun rest = true) :
    noWsRun (w ++ rest) = true := by
  induction w with
  | nil => simpa using hrest
  | cons a w2 ih =>
    have ha : isPyWs a = false := hw a (List.mem_cons_self a w2)
    have htail : noWsRun (w2 ++ rest) = true :=
      ih (fun c hc => hw c (List.mem_cons_of_mem a hc))
    cases hwr : w2 ++ rest with
    | nil => rw [List.cons_append, hwr]; simp [noWsRun]
    | cons b t =>
      have : a :: (w2 ++ rest) = a :: b :: t := by rw [hwr]
      rw [List.cons_append, this]
      rw [hwr] at htail
      simp [noWsRun, ha, htail]

theorem noWsRun_take (l : List Char) :
    ∀ n, noWsRun l = true → noWsRun (l.take n) = true := by
  induction l with
  | nil => intro n h; simpa using h
  | cons a t ih =>
    intro n h
    cases n with
    | zero => simp [noWsRun]
    | succ m =>
      rw [List.take_succ_cons]
      cases t with
      | nil => cases m <;> simp [noWsRun]
      | cons b t2 =>
        have hpair : (!(isPyWs a && isPyWs b)) = true ∧
            noWsRun (b :: t2) = true := by
          simpa [noWsRun, Bool.and_eq_true] using h
        cases m with
        | zero => simp [noWsRun]
        | succ m2 =>
          have htail : noWsRun ((b :: t2).take (m2 + 1)) = true :=
            ih (m2 + 1) hpair.2
          rw [List.take_succ_cons] at htail
          rw [List.take_succ_cons]
          simp only [noWsRun, Bool.and_eq_true]
          exact ⟨hpair.1, htail⟩

theorem noWsRun_append_single (l : List Char) (c : Char)
    (h : noWsRun l = true) (hc : isPyWs c = false) :
    noWsRun (l ++ [c]) = true := by
  induction l with
  | nil => simp [noWsRun]
  | cons a t ih =>
    cases t with
    | nil => simp [noWsRun, hc]
    | cons b t2 =>
      have hpair : (!(isPyWs a && isPyWs b)) = true ∧
          noWsRun (b :: t2) = true := by
        simpa [noWsRun, Bool.and_eq_true] using h
      have htail : noWsRun ((b :: t2) ++ [c]) = true := ih hpair.2
      rw [List.cons_append]
      simp only [noWsRun, Bool.and_eq_true]
      rw [List.cons_append] at htail
      exact ⟨hpair.1, htail⟩

theorem splitWsAux_parts (l : List Char) :
    ∀ acc, (∀ c ∈ acc, isPyWs c = false) →
    ∀ w ∈ splitWsAux l acc, w ≠ [] ∧ ∀ c ∈ w, isPyWs c = false := by
  induction l with
  | nil =>
    intro acc hacc w hw
    by_cases ha : acc = []
    · simp [splitWsAux, ha] at hw
    · simp [splitWsAux, ha] at hw
      subst hw
      refine ⟨by simpa using ha, fun c hc => ?_⟩
      exact hacc c (List.mem_reverse.mp hc)
  | cons c rest ih =>
    intro acc hacc w hw
    by_cases hws : isPyWs c = true
    · by_cases ha : acc = []
      · rw [splitWsAux, if_pos hws, if_pos ha] at hw
        exact ih [] (by intro x hx; cases hx) w hw
      · rw [splitWsAux, if_pos hws, if_neg ha] at hw
        rcases List.mem_cons.mp hw with h1 | h2
        · subst h1
          refine ⟨by simpa using ha, fun x hx => ?_⟩
          exact hacc x (List.mem_reverse.mp hx)
        · exact ih [] (by intro x hx; cases hx) w h2
    · have hws' : isPyWs c = false := by simpa using hws
      rw [splitWsAux, if_neg (by simp [hws'])] at hw
      refine ih (c :: acc) ?_ w hw
      intro x hx
      rcases List.mem_cons.mp hx with h1 | h2
      · rw [h1]; exact hws'
      · exact hacc x h2

theorem splitWs_parts (l : List Char) :
    ∀ w ∈ splitWs l, w ≠ [] ∧ ∀ c ∈ w, isPyWs c = false :=
  splitWsAux_parts l [] (by intro x hx; cases hx)

theorem joinSpace_parts (parts : List (List Char))
    (hp : ∀ w ∈ parts, w ≠ [] ∧ ∀ c ∈ w, isPyWs c = false) :
    noWsRun (joinSpace parts) = true ∧
    (∀ c, (joinSpace parts).head? = some c → isPyWs c = false) := by
  induction parts with
  | nil => simp [joinSpace, noWsRun]
  | cons w ws ih =>
    obtain ⟨hwne, hwc⟩ := hp w (List.mem_cons_self w ws)
    have hws : ∀ v ∈ ws, v ≠ [] ∧ ∀ c ∈ v, isPyWs c = false :=
      fun v hv => hp v (List.mem_cons_of_mem w hv)
    obtain ⟨ih1, ih2⟩ := ih hws
    cases ws with
    | nil =>
      constructor
      · show noWsRun (joinSpace [w]) = true
        have : joinSpace [w] = w := rfl
        rw [this]
        simpa using noWsRun_append_of_nonws w [] hwc (by simp [noWsRun])
      · intro c hc
        have : joinSpace [w] = w := rfl
        rw [this] at hc
        cases w with
        | nil => cases hc
        | cons x t =>
          simp at hc
          rw [← hc]
          exact hwc x (List.mem_cons_self x t)
    | cons w2 ws2 =>
      have hj : joinSpace (w :: w2 :: ws2) =
          w ++ ' ' :: joinSpace (w2 :: ws2) := rfl
      constructor
      · rw [hj]
        apply noWsRun_append_of_nonws w _ hwc
        cases hJ : joinSpace (w2 :: ws2) with
        | nil => simp [noWsRun]
        | cons b t =>
          have hb : isPyWs b = false := ih2 b (by rw [hJ]; rfl)
          have hbt : noWsRun (b :: t) = true := by rw [← hJ]; exact ih1
          simp [noWsRun, hb, hbt]
      · rw [hj]
        intro c hc
        cases w with
        | nil => exact absurd rfl hwne
        | cons x t =>
          rw [List.cons_append] at hc
          simp at hc
          rw [← hc]
          exact hwc x (List.mem_cons_self x t)

theorem isPyWs_of_isLineBreak (c : Char) (h : isLineBreak c = true) :
    isPyWs c = true := by
  simp only [isLineBreak, Bool.or_eq_true, decide_eq_true_eq] at h
  simp only [isPyWs, Bool.or_eq_true, decide_eq_true_eq]
  tauto

theorem isLineBreak_eq_false (c : Char) (h : isPyWs c = false) :
    isLineBreak c = false := by
  by_contra hne
  have hb : isLineBreak c = true := by
    cases hx : isLineBreak c
    · exact absurd hx hne
    · rfl
  rw [isPyWs_of_isLineBreak c hb] at h
  cases h

theorem mem_joinSpace (parts : List (List Char)) :
    ∀ c ∈ joinSpace parts, c = ' ' ∨ ∃ w ∈ parts, c ∈ w := by
  induction parts with
  | nil => intro c hc; cases hc
  | cons w ws ih =>
    intro c hc
    cases ws with
    | nil =>
      have : joinSpace [w] = w := rfl
      rw [this] at hc
      exact Or.inr ⟨w, List.mem_cons_self w [], hc⟩
    | cons w2 ws2 =>
      have hj : joinSpace (w :: w2 :: ws2) =
          w ++ ' ' :: joinSpace (w2 :: ws2) := rfl
      rw [hj] at hc
      rcases List.mem_append.mp hc with h1 | h2
      · exact Or.inr ⟨w, List.mem_cons_self w _, h1⟩
      · rcases List.mem_cons.mp h2 with h3 | h4
        · exact Or.inl h3
        · rcases ih c h4 with h5 | ⟨v, hv, hcv⟩
          · exact Or.inl h5
          · exact Or.inr ⟨v, List.mem_cons_of_mem w hv, hcv⟩

theorem pyCollapseWs_spec (s : String) :
    noWsRun (pyCollapseWs s).data = true ∧
    (∀ c ∈ (pyCollapseWs s).data, isLineBreak c = false) := by
  have hp := splitWs_parts s.data
  obtain ⟨h1, _⟩ := joinSpace_parts (splitWs s.data) hp
  refine ⟨h1, fun c hc => ?_⟩
  rcases mem_joinSpace (splitWs s.data) c hc with h2 | ⟨w, hw, hcw⟩
  · rw [h2]; decide
  · exact isLineBreak_eq_false c ((hp w hw).2 c hcw)

theorem splitlinesAux_no_break (l : List Char) :
    ∀ acc prevCR, (∀ c ∈ l, isLineBreak c = false) →
    splitlinesAux l acc prevCR =
      if acc.reverse ++ l = [] then [] else [acc.reverse ++ l] := by
  induction l with
  | nil =>
    intro acc prevCR _
    by_cases ha : acc = []
    · simp [splitlinesAux, ha]
    · simp [splitlinesAux, ha]
  | cons c rest ih =>
    intro acc prevCR h
    have hc : isLineBreak c = false := h c (List.mem_cons_self c rest)
    have hn : ¬ c = '\n' := by
      intro he; rw [he] at hc; exact absurd hc (by decide)
    have hr : ¬ c = '\r' := by
      intro he; rw [he] at hc; exact absurd hc (by decide)
    rw [splitlinesAux, if_neg (by simp [hn]), if_neg hr,
      if_neg (by simp [hc])]
    rw [ih (c :: acc) false (fun x hx => h x (List.mem_cons_of_mem c hx))]
    have hx : (c :: acc).reverse ++ rest = acc.reverse ++ c :: rest := by
      simp
    rw [hx]

theorem pyJoinLines_no_break (s : String)
    (h : ∀ c ∈ s.data, isLineBreak c = false) : pyJoinLines s = s := by
  cases s with
  | mk d =>
    show (⟨joinSpace (splitlinesList d)⟩ : String) = ⟨d⟩
    rw [splitlinesList, splitlinesAux_no_break d [] false h]
    cases d with
    | nil => rfl
    | cons a t =>
      have hne : (([] : List Char).reverse ++ a :: t) ≠ [] := by simp
      rw [if_neg hne]
      show (⟨joinSpace [[].reverse ++ a :: t]⟩ : String) = ⟨a :: t⟩
      have : joinSpace [List.reverse [] ++ a :: t] =
          List.reverse [] ++ a :: t := rfl
      rw [this]
      rfl

theorem strMk_data (s : String) : (⟨s.data⟩ : String) = s := by
  cases s; rfl

theorem emitNormalize_cases (s : String) :
    (60 < (pyCollapseWs s).length →
      (emitNormalize s).data = (pyCollapseWs s).data.take 60 ++ ['…']) ∧
    ((pyCollapseWs s).length ≤ 60 → emitNormalize s = pyCollapseWs s) := by
  constructor
  · intro h
    show (truncate60 (pyCollapseWs s)).data = _
    rw [truncate60, if_pos (by omega)]
  · intro h
    show truncate60 (pyCollapseWs s) = _
    rw [truncate60, if_neg (by omega)]

theorem emitNormalize_noBreak (s : String) :
    ∀ c ∈ (emitNormalize s).data, isLineBreak c = false := by
  by_cases h : 60 < (pyCollapseWs s).length
  · rw [(emitNormalize_cases s).1 h]
    intro c hc
    rcases List.mem_append.mp hc with h1 | h2
    · exact (pyCollapseWs_spec s).2 c (List.take_subset _ _ h1)
    · rw [List.mem_singleton.mp h2]; decide
  · rw [(emitNormalize_cases s).2 (by omega)]
    exact (pyCollapseWs_spec s).2

theorem emitNormalize_noWsRun (s : String) :
    noWsRun (emitNormalize s).data = true := by
  by_cases h : 60 < (pyCollapseWs s).length
  · rw [(emitNormalize_cases s).1 h]
    exact noWsRun_append_single _ _
      (noWsRun_take _ 60 (pyCollapseWs_spec s).1) (by decide)
  · rw [(emitNormalize_cases s).2 (by omega)]
    exact (pyCollapseWs_spec s).1

theorem emitNormalize_len (s : String) : (emitNormalize s).length ≤ 61 := by
  by_cases h : 60 < (pyCollapseWs s).length
  · show (emitNormalize s).data.length ≤ 61
    rw [(emitNormalize_cases s).1 h]
    simp [List.length_take]
  · rw [(emitNormalize_cases s).2 (by omega)]
    omega

theorem tmux_preview_emitNormalize (s : String) :
    tmux_preview (emitNormalize s) = emitNormalize s := by
  show truncate60 (pyJoinLines (emitNormalize s)) = emitNormalize s
  rw [pyJoinLines_no_break _ (emitNormalize_noBreak s)]
  by_cases h : 60 < (pyCollapseWs s).length
  · have hd := (emitNormalize_cases s).1 h
    have hlen60 : ((pyCollapseWs s).data.take 60).length = 60 := by
      have : 60 < (pyCollapseWs s).data.length := h
      simp [List.length_take]
      omega
    have hlen : (emitNormalize s).length = 61 := by
      show (emitNormalize s).data.length = 61
      rw [hd]
      simp [hlen60]
    rw [truncate60, if_pos (by omega)]
    have h1 : (emitNormalize s).data.take 60 ++ ['…'] =
        (emitNormalize s).data := by
      rw [hd, List.take_left' hlen60]
    rw [h1, strMk_data]
  · have hle : (pyCollapseWs s).length ≤ 60 := by omega
    have hd := (emitNormalize_cases s).2 hle
    rw [hd, truncate60, if_neg (by omega)]

/-- C7 counterexample: the preview writer receives the raw error
string on the error path, and it keeps the interior double space, so
not every string delivered to the preview has its whitespace runs
collapsed. -/
theorem claim_C7_counterexample :
    tmux_preview "Error: x  y" = "Error: x  y" ∧
    noWsRun (tmux_preview "Error: x  y").data = false ∧
    tmux_preview "Error: x  y" ≠ pyCollapseWs "Error: x  y" := by
  decide

/-- C7 (amended): strings delivered through the engine partial emitter
are whitespace-collapsed (no whitespace runs) and ellipsis-truncated
at 60 characters, and pass through the preview writer unchanged; the
preview writer itself only replaces line boundaries by single spaces
and applies the same 60-character ellipsis truncation, without
collapsing interior whitespace runs. -/
theorem claim_C7_amended (s : String) :
    noWsRun (emitNormalize s).data = true ∧
    (emitNormalize s).length ≤ 61 ∧
    ((pyCollapseWs s).length ≤ 60 → emitNormalize s = pyCollapseWs s) ∧
    (60 < (pyCollapseWs s).length →
      (emitNormalize s).data = (pyCollapseWs s).data.take 60 ++ ['…']) ∧
    tmux_preview (emitNormalize s) = emitNormalize s ∧
    ((pyJoinLines s).length ≤ 60 → tmux_preview s = pyJoinLines s) ∧
    (60 < (pyJoinLines s).length →
      (tmux_preview s).data = (pyJoinLines s).data.take 60 ++ ['…']) := by
  refine ⟨emitNormalize_noWsRun s, emitNormalize_len s,
    (emitNormalize_cases s).2, (emitNormalize_cases s).1,
    tmux_preview_emitNormalize s, ?_, ?_⟩
  · intro h
    show truncate60 (pyJoinLines s) = _
    rw [truncate60, if_neg (by omega)]
  · intro h
    show (truncate60 (pyJoinLines s)).data = _
    rw [truncate60, if_pos (by omega)]

theorem claim_C7_witness :
    (pyCollapseWs "hi   there\nfriend").length ≤ 60 ∧
    emitNormalize "hi   there\nfriend" =
      pyCollapseWs "hi   there\nfriend" ∧
    noWsRun (emitNormalize "hi   there\nfriend").data = true ∧
    tmux_preview (emitNormalize "hi   there\nfriend") =
      emitNormalize "hi   there\nfriend" :=
  ⟨by decide, (claim_C7_amended "hi   there\nfriend").2.2.1 (by decide),
   (claim_C7_amended "hi   there\nfriend").1,
   (claim_C7_amended "hi   there\nfriend").2.2.2.2.1⟩
